import Mathlib

/-!
# Verification of the terminal path-hyperlink resolver

Shallow embedding of the path-hyperlink heuristics of the `terminal` and
`terminal_view` crates (files `terminal_maybe_path_like.rs`,
`terminal_path_hyperlinks.rs`, `terminal_maybe_path.rs`).

Modelling conventions:

* A terminal line is a `List Char`.  Rust byte indices and byte lengths are
  modelled as character indices and character counts.  This is exact for
  ASCII data, and the algorithms only ever index at offsets guarded by
  ASCII characters (a stripped surrounding symbol, a git-diff `a`/`b`
  prefix), so the index arithmetic of the source is preserved verbatim.
* `Range<usize>` is the `SRange` structure below (`stop` plays the role of
  the field named `end` in Rust, which is a Lean keyword).
* Rust `usize` subtraction panics on underflow (debug builds); where a
  claim is about that behaviour the function returns `Option`, with `none`
  modelling the panic.  Everywhere else the source's subtractions are
  guarded and cannot underflow.
* Filesystem paths use Unix semantics (the configuration the repository's
  own tests run under and the one the non-`windows` `cfg` branches
  implement): the separator is `/`, a path is absolute iff it starts with
  `/`, and `Path::strip_prefix`/`components` normalisation follows the
  Rust standard library.
* Where the two overlapping revisions of `MaybePathVariant` disagree
  (`terminal_view/src/terminal_maybe_path.rs` vs
  `terminal/src/terminal_path_hyperlinks.rs`), the definitions below embed
  the `terminal_view` revision, which is the most recent one and the one
  the specification adopts (symbol-stripped variation first, positioned
  variation emitted first).
-/

/-- `Range<usize>`: the half-open interval `[start, stop)`.  The Rust field
`end` is called `stop` here because `end` is a Lean keyword. -/
structure SRange where
  start : Nat
  stop : Nat
deriving DecidableEq, Repr

/-- `Range::contains` for `Range<usize>`: `start ≤ i < stop`. -/
def SRange.containsB (r : SRange) (i : Nat) : Bool :=
  decide (r.start ≤ i) && decide (i < r.stop)

/-- `Range::len`: `stop - start`. -/
def SRange.len (r : SRange) : Nat := r.stop - r.start

/-- Two ranges overlap when they share at least one position (this is the
spec's notion used by claim C1: "shares at least one byte position"). -/
def SRange.overlapsB (a b : SRange) : Bool :=
  decide (max a.start b.start < min a.stop b.stop)

/-- The slice `&line[r]` of a line, as a list of characters. -/
def sliceOf (line : List Char) (r : SRange) : List Char :=
  (line.drop r.start).take (r.stop - r.start)

/-- `MAIN_SEPARATORS`: characters treated as path separators by the
heuristics (`\` and `/`). -/
def MAIN_SEPARATORS : List Char := ['\\', '/']

/-- `COMMON_PATH_SURROUNDING_SYMBOLS`: `("", ""), ('',''), ([,]), ((,))`.
The single-quote character is written via `Char.ofNat 39`. -/
def COMMON_PATH_SURROUNDING_SYMBOLS : List (Char × Char) :=
  [('"', '"'), (Char.ofNat 39, Char.ofNat 39), ('[', ']'), ('(', ')')]

/-- `str::find(char)`: index of the first occurrence of `c`. -/
def findChar (line : List Char) (c : Char) : Option Nat :=
  line.findIdx? (· == c)

/-- `str::rfind(char)`: index of the last occurrence of `c`. -/
def rfindChar (line : List Char) (c : Char) : Option Nat :=
  (line.reverse.findIdx? (· == c)).map (fun i => line.length - 1 - i)

/-- The closure `surrounds_word` of `longest_surrounding_symbols_match`.
It computes `current.contains(&word_range.start) &&
current.contains(&(word_range.end - 1))`; the `usize` subtraction
`word_range.end - 1` underflows (panics) when `word_range.end = 0`, which
is modelled by `none`. -/
def surroundsWordChecked (wordRange current : SRange) : Option Bool :=
  if wordRange.stop = 0 then none
  else some (current.containsB wordRange.start && current.containsB (wordRange.stop - 1))

/-- One iteration of the `for (start, end) in COMMON_PATH_SURROUNDING_SYMBOLS`
loop of `longest_surrounding_symbols_match`. -/
def lssmStep (line : List Char) (wordRange : SRange) (longest : Option SRange)
    (pair : Char × Char) : Option (Option SRange) :=
  match findChar line pair.1, rfindChar line pair.2 with
  | some first, some last =>
    if first < last then
      let current : SRange := ⟨first, last + 1⟩
      match surroundsWordChecked wordRange current with
      | none => none
      | some ok =>
        if ok then
          match longest with
          | some longestSoFar =>
            if current.len > longestSoFar.len then some (some current)
            else some (some longestSoFar)
          | none => some (some current)
        else some longest
    else some longest
  | _, _ => some longest

/-- `longest_surrounding_symbols_match(line, word_range)`
(`terminal/src/terminal_maybe_path_like.rs`; the method
`MaybePath::longest_surrounding_symbols_match` of
`terminal_path_hyperlinks.rs` is identical).  The outer `Option` models
the `usize` underflow panic of `word_range.end - 1`: `none` means the
function panics, `some r` means it returns `r`. -/
def longest_surrounding_symbols_match (line : List Char) (wordRange : SRange) :
    Option (Option SRange) :=
  COMMON_PATH_SURROUNDING_SYMBOLS.foldlM (lssmStep line wordRange) none

/-- The loop body of `path_regex_match`: try each regex in order; a regex
whose match or `path` capture is absent (`none`) is skipped; the first
capture whose start or end position is contained in the hovered range is
returned. -/
def pathRegexMatchGo (hoveredWordRange : SRange) : List (Option SRange) → Option SRange
  | [] => none
  | none :: rest => pathRegexMatchGo hoveredWordRange rest
  | some pathCapture :: rest =>
    if hoveredWordRange.containsB pathCapture.start
        || hoveredWordRange.containsB pathCapture.stop then
      some pathCapture
    else pathRegexMatchGo hoveredWordRange rest

/-- `path_regex_match(line, hovered_word_range, path_regexes)`
(`terminal/src/terminal_maybe_path_like.rs`).  Each regex is modelled by
the range of the `path` capture of its first match on the given line
(`none` when the regex does not match the line or the `path` group does
not participate), so the `line` parameter itself is absorbed into the
`pathRegexes` list.  The source iterates the regex list chained with
itself (`path_regexes.iter().chain(path_regexes.iter())`), which is kept
verbatim. -/
def path_regex_match (hoveredWordRange : SRange) (pathRegexes : List (Option SRange)) :
    Option SRange :=
  pathRegexMatchGo hoveredWordRange (pathRegexes ++ pathRegexes)

/-- Split a character list on `/` (used to model Unix `Path` components). -/
def splitOnSlash : List Char → List (List Char)
  | [] => [[]]
  | c :: rest =>
    let r := splitOnSlash rest
    if c == '/' then [] :: r
    else
      match r with
      | [] => [[c]]
      | seg :: segs => (c :: seg) :: segs

/-- Unix `Path::file_name`: the last component of the path, `none` when the
path ends in `..`, is a root, or has no component at all.  Empty and `.`
segments are normalised away, matching `std::path::Components`. -/
def pathFileName (s : List Char) : Option (List Char) :=
  let segs := (splitOnSlash s).filter (fun seg => !seg.isEmpty && seg ≠ ['.'])
  match segs.getLast? with
  | none => none
  | some seg => if seg = ['.', '.'] then none else some seg

/-- Unix `Path::extension().is_some()`: the file name exists and contains a
`.` at an index other than 0 (equivalently, its tail contains a `.`),
following the Rust documentation of `Path::extension`. -/
def hasExtension (s : List Char) : Bool :=
  match pathFileName s with
  | none => false
  | some name => (name.drop 1).contains '.'

/-- `MaybePathLike::looks_like_a_path_match` (`terminal_maybe_path_like.rs`):
`Path::new(word).extension().is_some() || word.starts_with('.') ||
word.contains(MAIN_SEPARATORS)`. -/
def looks_like_a_path_match (line : List Char) (wordRange : SRange) : Bool :=
  let word := sliceOf line wordRange
  hasExtension word || word.head? == some '.' || word.any (fun c => MAIN_SEPARATORS.contains c)

/-- The data of a `HoveredWord` that is visible to this model: the text of
the chosen word and the byte range of the line it came from.  (The source
additionally converts the text range to a terminal-grid `Match` via
`match_from_text_range`, which needs live terminal state and is outside
this embedding.) -/
structure HoveredWord where
  word : List Char
  wordTextRange : SRange
deriving DecidableEq, Repr

/-- `MaybePathLike::best_heuristic_hovered_word`
(`terminal/src/terminal_maybe_path_like.rs`, lines 231-269).  The outer
`Option` propagates the `usize` underflow panic of
`longest_surrounding_symbols_match`.  Note that the source passes
`&Vec::new()` — an empty, freshly created vector — as the regex list of the
third alternative, which is kept verbatim here. -/
def best_heuristic_hovered_word (line : List Char) (wordRange : SRange) :
    Option (Option HoveredWord) :=
  match longest_surrounding_symbols_match line wordRange with
  | none => none
  | some (some surroundingRange) =>
    let strippedRange : SRange := ⟨surroundingRange.start + 1, surroundingRange.stop - 1⟩
    some (some ⟨sliceOf line strippedRange, strippedRange⟩)
  | some none =>
    if looks_like_a_path_match line wordRange then
      some (some ⟨sliceOf line wordRange, wordRange⟩)
    else
      match path_regex_match wordRange [] with
      | some pathRange => some (some ⟨sliceOf line pathRange, pathRange⟩)
      | none => some none

/-- `RowColumn` (`terminal_view/src/terminal_maybe_path.rs`). -/
structure RowColumn where
  row : Nat
  column : Option Nat
  suffix_length : Nat
deriving DecidableEq, Repr

/-- `MaybePathWithPosition` (`terminal_view/src/terminal_maybe_path.rs`).
The borrowed-or-owned `Cow<Path>` is modelled by the text of the path. -/
structure MaybePathWithPosition where
  path : List Char
  position : Option RowColumn
  range : SRange
deriving DecidableEq, Repr

/-- `MaybePathWithPosition::hyperlink_range` (identical in
`terminal_view/src/terminal_maybe_path.rs` lines 247-252 and
`terminal/src/terminal_path_hyperlinks.rs` lines 496-501). -/
def MaybePathWithPosition.hyperlink_range (m : MaybePathWithPosition) : SRange :=
  match m.position with
  | some position => ⟨m.range.start, m.range.stop + position.suffix_length⟩
  | none => m.range

/-- Decimal value of a digit list (most significant digit first). -/
def natOfDigits (ds : List Char) : Nat :=
  ds.foldl (fun acc c => acc * 10 + (c.toNat - 48)) 0

/-- Modelled from the spec: `util::paths::PathWithPosition::parse_row_column`
lives in the `util` crate, which is not under `src/`.  The spec gives the
accepted position-suffix grammar as `:ROW`, `:ROW:COL` or `(ROW,COL)` on
the tail of the text, with `suffix_length` the number of bytes consumed.
This parser works on the reversed text and returns
`(consumed, row, column)` for a recognised suffix. -/
def parseRowColumnRev (rev : List Char) : Option (Nat × Nat × Option Nat) :=
  match rev with
  | ')' :: rest =>
    let colDigits := rest.takeWhile (·.isDigit)
    let rest1 := rest.dropWhile (·.isDigit)
    match colDigits, rest1 with
    | [], _ => none
    | _ :: _, ',' :: rest2 =>
      let rowDigits := rest2.takeWhile (·.isDigit)
      let rest3 := rest2.dropWhile (·.isDigit)
      match rowDigits, rest3 with
      | [], _ => none
      | _ :: _, '(' :: _ =>
        some (colDigits.length + rowDigits.length + 3,
          natOfDigits rowDigits.reverse, some (natOfDigits colDigits.reverse))
      | _, _ => none
    | _, _ => none
  | _ =>
    let d1 := rev.takeWhile (·.isDigit)
    let rest1 := rev.dropWhile (·.isDigit)
    match d1, rest1 with
    | [], _ => none
    | _ :: _, ':' :: rest2 =>
      let d2 := rest2.takeWhile (·.isDigit)
      let rest3 := rest2.dropWhile (·.isDigit)
      match d2, rest3 with
      | _ :: _, ':' :: _ =>
        some (d1.length + d2.length + 2, natOfDigits d2.reverse, some (natOfDigits d1.reverse))
      | _, _ => some (d1.length + 1, natOfDigits d1.reverse, none)
    | _, _ => none

/-- Modelled from the spec: `PathWithPosition::parse_row_column` returns
`(suffix_start, Some(row), column)` when a position suffix is recognised
and `(s.len(), None, None)` otherwise (see `parseRowColumnRev`). -/
def parseRowColumn (s : List Char) : Nat × Option Nat × Option Nat :=
  match parseRowColumnRev s.reverse with
  | some (consumed, row, column) => (s.length - consumed, some row, column)
  | none => (s.length, none, none)

/-- The surrounding-symbol stripping condition of `MaybePathVariant::new`:
`1 == COMMON_PATH_SURROUNDING_SYMBOLS.iter().skip_while(|(s, e)|
!maybe_path.starts_with(*s) || !maybe_path.ends_with(*e)).take(1).count()`,
i.e. some pair surrounds the slice. -/
def symPairMatches (s : List Char) : Bool :=
  COMMON_PATH_SURROUNDING_SYMBOLS.any (fun p => s.head? == some p.1 && s.getLast? == some p.2)

/-- The git-diff condition of `MaybePathVariant::new`:
`(maybe_path.starts_with('a') || maybe_path.starts_with('b')) &&
maybe_path[1..].starts_with(MAIN_SEPARATORS)`. -/
def gitDiffSlice (s : List Char) : Bool :=
  (s.head? == some 'a' || s.head? == some 'b') &&
    (match (s.drop 1).head? with
     | some c => MAIN_SEPARATORS.contains c
     | none => false)

/-- `MaybePathVariant` (`terminal_view/src/terminal_maybe_path.rs`): the
ordered variation set for one candidate sub-range of the line. -/
structure MaybePathVariant where
  variations : List SRange
  positioned_variation : Option (SRange × RowColumn)
  absolutize_home_dir : Bool
deriving DecidableEq, Repr

/-- `MaybePathVariant::new(line, path)`
(`terminal_view/src/terminal_maybe_path.rs`, lines 302-370; this is the
revision the spec adopts — the older copy in
`terminal/src/terminal_path_hyperlinks.rs` pushes the symbol-stripped
variation after the original instead of in front of it). -/
def MaybePathVariant.new (line : List Char) (path : SRange) : MaybePathVariant :=
  let maybe_path := sliceOf line path
  if maybe_path.length > 2 then
    let stripped := symPairMatches maybe_path
    let path1 : SRange := if stripped then ⟨path.start + 1, path.stop - 1⟩ else path
    let variations1 : List SRange := if stripped then [path1, path] else [path]
    let maybe_path1 := sliceOf line path1
    let isGit := !stripped && gitDiffSlice maybe_path1
    let variations2 :=
      if isGit then variations1 ++ [⟨path1.start + 2, path1.stop⟩] else variations1
    let positioned : Option (SRange × RowColumn) :=
      match parseRowColumn maybe_path1 with
      | (suffixStart, some row, column) =>
        let suffix_length := maybe_path1.length - suffixStart
        some (⟨path1.start, path1.stop - suffix_length⟩, ⟨row, column, suffix_length⟩)
      | _ => none
    ⟨variations2, positioned, !isGit⟩
  else ⟨[path], none, true⟩

/-- Claim-side condition: a surrounding-symbol pair is stripped from the
candidate slice (`common_symbols_stripped` ends up `true`). -/
def stripsSymbols (line : List Char) (path : SRange) : Bool :=
  (sliceOf line path).length > 2 && symPairMatches (sliceOf line path)

/-- Claim-side condition: a git-diff prefix (`a/`, `b/`, `a\` or `b\`,
with no surrounding symbols stripped) is recognised and stripped. -/
def stripsGitDiff (line : List Char) (path : SRange) : Bool :=
  (sliceOf line path).length > 2 && !symPairMatches (sliceOf line path) &&
    gitDiffSlice (sliceOf line path)

/-- The candidate range after surrounding-symbol stripping (the range whose
slice row/column parsing is applied to). -/
def postStripRange (line : List Char) (path : SRange) : SRange :=
  if stripsSymbols line path then ⟨path.start + 1, path.stop - 1⟩ else path

/-- Unix `Path::is_absolute`: the path has a root, i.e. starts with `/`. -/
def pathIsAbsolute (s : List Char) : Bool := s.head? == some '/'

/-- Unix `Path::is_relative`. -/
def pathIsRelative (s : List Char) : Bool := !pathIsAbsolute s

/-- The non-empty `/`-separated segments of a path text. -/
def pathSegs (s : List Char) : List (List Char) :=
  (splitOnSlash s).filter (fun seg => !seg.isEmpty)

/-- Unix `std::path::Components`: `none` is the root directory component,
`some seg` a normal (or `.`/`..`) component.  `.` segments are normalised
away except when they lead a relative path, matching the Rust standard
library. -/
def pathComponents (s : List Char) : List (Option (List Char)) :=
  let segs := pathSegs s
  if pathIsAbsolute s then
    none :: (segs.filter (fun seg => seg ≠ ['.'])).map some
  else
    match segs with
    | seg :: rest =>
      if seg = ['.'] then (seg :: rest.filter (fun t => t ≠ ['.'])).map some
      else ((seg :: rest).filter (fun t => t ≠ ['.'])).map some
    | [] => []

/-- Render a component list back to path text (used for the path returned
by `Path::strip_prefix`). -/
def renderComponents (comps : List (Option (List Char))) : List Char :=
  match comps with
  | none :: rest => '/' :: List.intercalate ['/'] (rest.filterMap id)
  | _ => List.intercalate ['/'] (comps.filterMap id)

/-- Unix `Path::strip_prefix`: succeeds iff the components of `pre` are a
prefix of the components of `s`; the result is the remaining components. -/
def stripPrefixPath (pre s : List Char) : Option (List Char) :=
  let pc := pathComponents pre
  let sc := pathComponents s
  if pc.isPrefixOf sc then some (renderComponents (sc.drop pc.length)) else none

/-- Unix `PathBuf::join` of two path texts: an absolute right-hand side
replaces the left-hand side; otherwise a `/` separator is inserted unless
the left-hand side is empty or already ends with `/`. -/
def pathJoin (a b : List Char) : List Char :=
  if pathIsAbsolute b then b
  else if a.isEmpty then b
  else if a.getLast? == some '/' then a ++ b
  else a ++ '/' :: b

/-- `MaybePathVariant::relative_variations(prefix_to_strip)`
(`terminal_view/src/terminal_maybe_path.rs`, lines 372-404; this revision
emits the positioned variation first — the older copy in
`terminal/src/terminal_path_hyperlinks.rs` pushes it last). -/
def relative_variations (line : List Char) (v : MaybePathVariant)
    (prefixToStrip : Option (List Char)) : List MaybePathWithPosition :=
  let positionedList : List (SRange × Option RowColumn) :=
    match v.positioned_variation with
    | some (r, position) => [(r, some position)]
    | none => []
  let pairs := positionedList ++ v.variations.map (fun r => (r, none))
  pairs.filterMap (fun rp =>
    let maybe_path := sliceOf line rp.1
    if pathIsRelative maybe_path then
      some ⟨(match prefixToStrip with
             | none => maybe_path
             | some pre => (stripPrefixPath pre maybe_path).getD maybe_path),
            rp.2, rp.1⟩
    else none)

/-- `MaybePathVariant::absolutize_home_dir`
(`terminal_view/src/terminal_maybe_path.rs`, lines 454-472, the
non-`windows` version; the `windows` version is an empty stub). -/
def absolutizeHomeDir (v : MaybePathVariant) (variationPath homeDir : List Char)
    (variationRange : SRange) (position : Option RowColumn) : List MaybePathWithPosition :=
  if v.absolutize_home_dir then
    match stripPrefixPath ['~'] variationPath with
    | some tildelessPath => [⟨pathJoin homeDir tildelessPath, position, variationRange⟩]
    | none => []
  else []

/-- `MaybePathVariant::absolutize(roots, home_dir, variation_range, position)`
(`terminal_view/src/terminal_maybe_path.rs`, lines 406-441). -/
def absolutize (line : List Char) (v : MaybePathVariant) (roots : List (List Char))
    (homeDir : List Char) (variationRange : SRange) (position : Option RowColumn) :
    List MaybePathWithPosition :=
  let variationPath := sliceOf line variationRange
  if pathIsAbsolute variationPath then
    [⟨variationPath, position, variationRange⟩]
  else
    (roots.map fun root => ⟨pathJoin root variationPath, position, variationRange⟩)
      ++ absolutizeHomeDir v variationPath homeDir variationRange position

/-- Modelled from the spec: `WORD_REGEX` is a crate-level constant that is
not under `src/`; the spec says to treat a word as a "maximal run of
path-friendly characters", parameterised here by the character predicate
`p`.  `wordStarts p l` lists, in increasing order, the start positions of
the maximal runs of `p`-characters of `l` (the positions `find_iter`
matches start at). -/
def wordStarts (p : Char → Bool) (l : List Char) : List Nat :=
  (List.range l.length).filter fun i =>
    p (l.getD i ' ') && (i == 0 || !p (l.getD (i - 1) ' '))

/-- Modelled from the spec: the end positions of the maximal runs of
`p`-characters of `l`, in increasing order (the positions `find_iter`
matches end at). -/
def wordEnds (p : Char → Bool) (l : List Char) : List Nat :=
  (List.range (l.length + 1)).filter fun e =>
    e != 0 && p (l.getD (e - 1) ' ') && (e == l.length || !p (l.getD e ' '))

/-- The candidate ranges produced by
`MaybePath::exhaustive_maybe_path_variants`
(`terminal_view/src/terminal_maybe_path.rs`, lines 175-200): word starts
are taken from `line[..hovered.end]`, word ends from `line[hovered.start..]`
iterated in reverse, and each pair yields
`start..hovered.start + end`. -/
def exhaustive_maybe_path_ranges (p : Char → Bool) (line : List Char) (hovered : SRange) :
    List SRange :=
  (wordStarts p (line.take hovered.stop)).flatMap fun s =>
    ((wordEnds p (line.drop hovered.start)).reverse).map fun e =>
      (⟨s, hovered.start + e⟩ : SRange)

/-- `MaybePath::exhaustive_maybe_path_variants`
(`terminal_view/src/terminal_maybe_path.rs`): one `MaybePathVariant::new`
per candidate range. -/
def exhaustive_maybe_path_variants (p : Char → Bool) (line : List Char) (hovered : SRange) :
    List MaybePathVariant :=
  (exhaustive_maybe_path_ranges p line hovered).map (MaybePathVariant.new line)

/-- The hovered word is one of the maximal `p`-runs of the line: non-empty,
within bounds, all characters inside satisfy `p`, and both boundaries are
maximal. -/
def isMaxRun (p : Char → Bool) (l : List Char) (r : SRange) : Bool :=
  decide (r.start < r.stop) && decide (r.stop ≤ l.length) &&
    ((List.range (r.stop - r.start)).all fun k => p (l.getD (r.start + k) ' ')) &&
    (r.start == 0 || !p (l.getD (r.start - 1) ' ')) &&
    (r.stop == l.length || !p (l.getD r.stop ' '))

/-- A sample word-character predicate used by concrete witnesses: every
character except the space counts as path-friendly (the spec leaves
`WORD_REGEX` abstract). -/
def sampleWordChar (c : Char) : Bool := c != ' '

theorem SRange.overlapsB_iff_shared (a b : SRange) :
    a.overlapsB b = true ↔ ∃ i, a.containsB i = true ∧ b.containsB i = true := by
  constructor
  · intro h
    refine ⟨max a.start b.start, ?_, ?_⟩ <;>
      simp only [SRange.overlapsB, SRange.containsB, decide_eq_true_eq,
        Bool.and_eq_true, max_lt_iff, lt_min_iff] at h ⊢ <;>
      omega
  · rintro ⟨i, hi, hj⟩
    simp only [SRange.overlapsB, SRange.containsB, decide_eq_true_eq,
      Bool.and_eq_true, max_lt_iff, lt_min_iff] at hi hj ⊢
    omega

/-! ## Supporting lemmas -/

theorem foldlM_option_isSome {α β : Type} (f : β → α → Option β)
    (hf : ∀ b a, f b a ≠ none) : ∀ (l : List α) (init : β), (l.foldlM f init).isSome = true
  | [], _ => rfl
  | a :: l, init => by
    have h1 : (a :: l).foldlM f init = (f init a).bind fun b => l.foldlM f b := by
      simp [List.foldlM]
    rw [h1]
    cases hfa : f init a with
    | none => exact absurd hfa (hf _ _)
    | some b => simpa using foldlM_option_isSome f hf l b

theorem lssmStep_ne_none (line : List Char) (wordRange : SRange)
    (h : wordRange.stop ≠ 0) (acc : Option SRange) (pair : Char × Char) :
    lssmStep line wordRange acc pair ≠ none := by
  unfold lssmStep surroundsWordChecked
  rcases findChar line pair.1 with _ | first <;>
    rcases rfindChar line pair.2 with _ | last <;>
    simp only [ne_eq]
  · simp
  · simp
  · simp
  · rw [if_neg h]
    split
    · split
      · simp_all
      · split
        · cases acc with
          | none => simp
          | some longestSoFar => split <;> (try split) <;> simp
        · simp
    · simp

theorem pathRegexMatchGo_append (hovered : SRange) (l₁ l₂ : List (Option SRange)) :
    pathRegexMatchGo hovered (l₁ ++ l₂) =
      match pathRegexMatchGo hovered l₁ with
      | some r => some r
      | none => pathRegexMatchGo hovered l₂ := by
  induction l₁ with
  | nil => simp [pathRegexMatchGo]
  | cons ho rest ih =>
    cases ho with
    | none => simpa [pathRegexMatchGo] using ih
    | some cap =>
      simp only [List.cons_append, pathRegexMatchGo]
      split <;> simp [ih]

theorem pathRegexMatchGo_eq_find? (hovered : SRange) (l : List (Option SRange)) :
    pathRegexMatchGo hovered l =
      (l.filterMap id).find?
        (fun cap => hovered.containsB cap.start || hovered.containsB cap.stop) := by
  induction l with
  | nil => rfl
  | cons ho rest ih =>
    cases ho with
    | none => simpa [pathRegexMatchGo] using ih
    | some cap =>
      by_cases hc : (hovered.containsB cap.start || hovered.containsB cap.stop) = true
      · simp [pathRegexMatchGo, List.find?, hc]
      · simp [pathRegexMatchGo, List.find?, hc, ih,
          Bool.not_eq_true (hovered.containsB cap.start || hovered.containsB cap.stop) ▸ hc]

/-! ## Claim C1: `path_regex_match` and overlap -/

/-- C1, counterexample: the claim says a capture is returned iff it
*overlaps* the hovered range.  A capture `[0, 10)` that strictly contains
the hovered range `[2, 5)` overlaps it but is not returned (neither of its
endpoints lies inside the hovered range); conversely, a capture `[0, 2)`
merely adjacent to the hovered range `[2, 5)` does not overlap it but is
returned (its end position `2` lies inside the hovered range). -/
theorem c1_overlap_counterexample :
    (SRange.overlapsB ⟨0, 10⟩ ⟨2, 5⟩ = true ∧
      path_regex_match ⟨2, 5⟩ [some ⟨0, 10⟩] = none) ∧
    (SRange.overlapsB ⟨0, 2⟩ ⟨2, 5⟩ = false ∧
      path_regex_match ⟨2, 5⟩ [some ⟨0, 2⟩] = some ⟨0, 2⟩) := by
  decide

/-- C1 (amended): `path_regex_match` returns the `path` capture of the
first regex whose capture has an *endpoint inside the hovered range*
(`hovered.contains(capture.start) || hovered.contains(capture.end)`), not
of the first regex whose capture overlaps the hovered range; regexes that
fail to match or capture are skipped, and chaining the regex list with
itself makes no observable difference. -/
theorem c1_path_regex_match_endpoint_rule (hovered : SRange)
    (pathRegexes : List (Option SRange)) :
    path_regex_match hovered pathRegexes =
      (pathRegexes.filterMap id).find?
        (fun cap => hovered.containsB cap.start || hovered.containsB cap.stop) := by
  unfold path_regex_match
  rw [pathRegexMatchGo_append, pathRegexMatchGo_eq_find?]
  cases (pathRegexes.filterMap id).find?
      (fun cap => hovered.containsB cap.start || hovered.containsB cap.stop) <;> rfl

/-- C1, witness: the endpoint rule evaluated at a concrete regex list. -/
theorem c1_witness :
    path_regex_match ⟨2, 5⟩ [none, some ⟨3, 7⟩] =
      ([none, some ⟨3, 7⟩].filterMap id).find?
        (fun cap => SRange.containsB ⟨2, 5⟩ cap.start || SRange.containsB ⟨2, 5⟩ cap.stop) :=
  c1_path_regex_match_endpoint_rule ⟨2, 5⟩ [none, some ⟨3, 7⟩]

/-! ## Claim C2: the best-heuristic highlight -/

/-- C2: at the hovered word `main` of the line `main:20:5:desc` the first
two alternatives of `best_heuristic_hovered_word` fail (no surrounding
symbols on the line; `main` has no extension, does not start with `.` and
contains no separator) and the preapproved regex `<WORD_REGEX>:` matches
the line with its `path` capture `[0, 9)` (`main:20:5`) overlapping the
hovered range `[0, 4)` — yet the function returns `None`, because the
source passes a freshly created empty vector (`&Vec::new()`) instead of
`preapproved_path_hyperlink_regexes()` to `path_regex_match`, so the third
alternative can never fire.  The last two conjuncts show that
`path_regex_match` itself would return the capture had the preapproved
list been passed. -/
theorem c2_best_heuristic_regex_branch_dead :
    best_heuristic_hovered_word "main:20:5:desc".toList ⟨0, 4⟩ = some none ∧
      path_regex_match ⟨0, 4⟩ [some ⟨0, 9⟩] = some ⟨0, 9⟩ ∧
      SRange.overlapsB ⟨0, 9⟩ ⟨0, 4⟩ = true := by
  decide

/-! ## Claim C9: totality of `longest_surrounding_symbols_match` -/

/-- C9: for every line and every word range with `end ≥ 1` the function
returns a value (the `usize` subtraction `word_range.end - 1` cannot
underflow), while an empty word range with `end = 0` makes the subtraction
underflow as soon as a qualifying symbol pair exists on the line (here
`()`). -/
theorem c9_longest_surrounding_symbols_totality :
    (∀ (line : List Char) (wordRange : SRange), 1 ≤ wordRange.stop →
      (longest_surrounding_symbols_match line wordRange).isSome = true) ∧
    longest_surrounding_symbols_match ['(', ')'] ⟨0, 0⟩ = none := by
  constructor
  · intro line wordRange h
    exact foldlM_option_isSome _
      (fun b a => lssmStep_ne_none line wordRange (by omega) b a) _ none
  · decide

/-- C9, witness. -/
theorem c9_witness :
    1 ≤ (⟨0, 5⟩ : SRange).stop ∧
      (longest_surrounding_symbols_match "hello".toList ⟨0, 5⟩).isSome = true :=
  ⟨by decide, c9_longest_surrounding_symbols_totality.1 "hello".toList ⟨0, 5⟩ (by decide)⟩

/-! ## Claim C10: `hyperlink_range` without a position -/

/-- C10: when the position is `None`, `hyperlink_range` is exactly the
stored range; the `suffix_length` extension only applies with a position. -/
theorem c10_hyperlink_range_without_position (m : MaybePathWithPosition)
    (h : m.position = none) : m.hyperlink_range = m.range := by
  unfold MaybePathWithPosition.hyperlink_range
  rw [h]

/-- C10, witness. -/
theorem c10_witness :
    (⟨['a'], none, ⟨2, 5⟩⟩ : MaybePathWithPosition).position = none ∧
      (⟨['a'], none, ⟨2, 5⟩⟩ : MaybePathWithPosition).hyperlink_range = ⟨2, 5⟩ :=
  ⟨rfl, c10_hyperlink_range_without_position ⟨['a'], none, ⟨2, 5⟩⟩ rfl⟩

/-! ## Claim C3: variation order of `MaybePathVariant::new` -/

/-- C3: the variations list starts with the symbol-stripped interior when a
surrounding pair is stripped and with the base range otherwise; the
symbol-stripped form precedes the original, which precedes the
git-diff-stripped form; and every listed range is a subrange of the base
range. -/
theorem c3_variations_order (line : List Char) (path : SRange) :
    ((MaybePathVariant.new line path).variations =
      if stripsSymbols line path then [⟨path.start + 1, path.stop - 1⟩, path]
      else if stripsGitDiff line path then [path, ⟨path.start + 2, path.stop⟩]
      else [path]) ∧
    ∀ r ∈ (MaybePathVariant.new line path).variations,
      path.start ≤ r.start ∧ r.stop ≤ path.stop := by
  have hmain : (MaybePathVariant.new line path).variations =
      if stripsSymbols line path then [⟨path.start + 1, path.stop - 1⟩, path]
      else if stripsGitDiff line path then [path, ⟨path.start + 2, path.stop⟩]
      else [path] := by
    unfold MaybePathVariant.new stripsSymbols stripsGitDiff
    by_cases hlen : (sliceOf line path).length > 2
    · by_cases hsym : symPairMatches (sliceOf line path) = true
      · simp [hlen, hsym]
      · by_cases hgit : gitDiffSlice (sliceOf line path) = true
        · simp [hlen, hsym, hgit]
        · simp [hlen, hsym, hgit]
    · simp [hlen]
  refine ⟨hmain, ?_⟩
  intro r hr
  rw [hmain] at hr
  split at hr
  · simp only [List.mem_cons, List.not_mem_nil, or_false] at hr
    rcases hr with h | h <;> subst h <;> constructor <;> simp
  · split at hr
    · simp only [List.mem_cons, List.not_mem_nil, or_false] at hr
      rcases hr with h | h <;> subst h <;> constructor <;> simp
    · simp only [List.mem_cons, List.not_mem_nil, or_false] at hr
      subst hr
      exact ⟨le_refl _, le_refl _⟩

/-- C3, witness: the order at a concrete symbol-stripped candidate. -/
theorem c3_witness :
    (MaybePathVariant.new "(/w/x.rs)".toList ⟨0, 9⟩).variations =
      (if stripsSymbols "(/w/x.rs)".toList ⟨0, 9⟩
       then [⟨1, 8⟩, ⟨0, 9⟩]
       else if stripsGitDiff "(/w/x.rs)".toList ⟨0, 9⟩ then [⟨0, 9⟩, ⟨2, 9⟩]
       else [⟨0, 9⟩]) ∧
      (⟨1, 8⟩ : SRange).start ≥ 0 ∧ (⟨1, 8⟩ : SRange).stop ≤ 9 :=
  ⟨(c3_variations_order "(/w/x.rs)".toList ⟨0, 9⟩).1, by decide, by decide⟩

/-! ## Claim C6: `absolutize_home_dir` and git-diff stripping -/

/-- C6: `absolutize_home_dir` is `false` iff a git-diff prefix was
recognised and stripped; consequently, for the git-diff candidate
`a/~/foo.rs`, the `~/foo.rs` variation is only absolutized against the
roots, never against the home directory. -/
theorem c6_absolutize_home_dir_iff_git :
    (∀ (line : List Char) (path : SRange),
      ((MaybePathVariant.new line path).absolutize_home_dir = false ↔
        stripsGitDiff line path = true)) ∧
    ((absolutize "a/~/foo.rs".toList
        (MaybePathVariant.new "a/~/foo.rs".toList ⟨0, 10⟩)
        ["/w".toList] "/home/u".toList ⟨2, 10⟩ none).map (fun e => e.path) =
      ["/w/~/foo.rs".toList]) := by
  constructor
  · intro line path
    unfold MaybePathVariant.new stripsGitDiff
    by_cases hlen : (sliceOf line path).length > 2
    · by_cases hsym : symPairMatches (sliceOf line path) = true
      · simp [hlen, hsym]
      · by_cases hgit : gitDiffSlice (sliceOf line path) = true <;> simp [hlen, hsym, hgit]
    · simp [hlen]
  · decide

/-- C6, witness: the equivalence evaluated at the git-diff candidate. -/
theorem c6_witness :
    (MaybePathVariant.new "a/~/foo.rs".toList ⟨0, 10⟩).absolutize_home_dir = false ↔
      stripsGitDiff "a/~/foo.rs".toList ⟨0, 10⟩ = true :=
  c6_absolutize_home_dir_iff_git.1 "a/~/foo.rs".toList ⟨0, 10⟩

/-! ## Claim C7: the positioned variation -/

theorem parseRowColumn_fst_le (s : List Char) : (parseRowColumn s).1 ≤ s.length := by
  unfold parseRowColumn
  cases hs : parseRowColumnRev s.reverse with
  | none => simp
  | some t =>
    obtain ⟨consumed, row, col⟩ := t
    simp [Nat.sub_le]

theorem sliceOf_length_le (line : List Char) (r : SRange) :
    (sliceOf line r).length ≤ r.stop - r.start := by
  unfold sliceOf
  simp [List.length_take]


theorem new_positioned_eq (line : List Char) (path : SRange) :
    (MaybePathVariant.new line path).positioned_variation =
      if (sliceOf line path).length > 2 then
        (match parseRowColumn (sliceOf line (postStripRange line path)) with
         | (suffixStart, some row, column) =>
           some (⟨(postStripRange line path).start,
                  (postStripRange line path).stop -
                    ((sliceOf line (postStripRange line path)).length - suffixStart)⟩,
                 ⟨row, column, (sliceOf line (postStripRange line path)).length - suffixStart⟩)
         | _ => none)
      else none := by
  unfold MaybePathVariant.new postStripRange stripsSymbols
  by_cases hlen : (sliceOf line path).length > 2
  · by_cases hsym : symPairMatches (sliceOf line path) = true <;> simp [hlen, hsym]
  · simp [hlen]

/-- C7: `positioned_variation` is produced at most once (it is an
`Option`); when present, its range starts at the post-symbol-strip base
range's start and ends exactly `suffix_length` positions before that
range's end, and the row/column data comes from `parseRowColumn` applied
to the post-symbol-strip slice — the slice that still includes any
git-diff prefix, never the git-diff-stripped one. -/
theorem c7_positioned_variation (line : List Char) (path : SRange) (r : SRange) (p : RowColumn)
    (h : (MaybePathVariant.new line path).positioned_variation = some (r, p)) :
    r.stop + p.suffix_length = (postStripRange line path).stop ∧
    r.start = (postStripRange line path).start ∧
    parseRowColumn (sliceOf line (postStripRange line path)) =
      ((sliceOf line (postStripRange line path)).length - p.suffix_length,
        some p.row, p.column) := by
  rw [new_positioned_eq] at h
  by_cases hlen : (sliceOf line path).length > 2
  · rw [if_pos hlen] at h
    rcases hpc : parseRowColumn (sliceOf line (postStripRange line path)) with ⟨ss, orow, col⟩
    rw [hpc] at h
    cases orow with
    | none => simp at h
    | some row =>
      rw [Option.some_inj, Prod.ext_iff] at h
      obtain ⟨hr, hp⟩ := h
      subst hr
      subst hp
      have h1 : (sliceOf line (postStripRange line path)).length - ss ≤
          (sliceOf line (postStripRange line path)).length := Nat.sub_le _ _
      have h2 : (sliceOf line (postStripRange line path)).length ≤
          (postStripRange line path).stop - (postStripRange line path).start :=
        sliceOf_length_le line (postStripRange line path)
      have h3 : ss ≤ (sliceOf line (postStripRange line path)).length := by
        have h4 := parseRowColumn_fst_le (sliceOf line (postStripRange line path))
        rw [hpc] at h4
        exact h4
      refine ⟨?_, rfl, ?_⟩
      · show (postStripRange line path).stop -
            ((sliceOf line (postStripRange line path)).length - ss) +
            ((sliceOf line (postStripRange line path)).length - ss) =
            (postStripRange line path).stop
        omega
      · show (ss, some row, col) =
            ((sliceOf line (postStripRange line path)).length -
              ((sliceOf line (postStripRange line path)).length - ss), some row, col)
        have h5 : (sliceOf line (postStripRange line path)).length -
            ((sliceOf line (postStripRange line path)).length - ss) = ss := by omega
        rw [h5]
  · rw [if_neg hlen] at h
    simp at h

/-- C7, witness: the positioned variation of the candidate `b/path:4:2`. -/
theorem c7_witness :
    (MaybePathVariant.new "b/path:4:2".toList ⟨0, 10⟩).positioned_variation =
        some (⟨0, 6⟩, ⟨4, some 2, 4⟩) ∧
      ((⟨0, 6⟩ : SRange).stop + (⟨4, some 2, 4⟩ : RowColumn).suffix_length =
          (postStripRange "b/path:4:2".toList ⟨0, 10⟩).stop ∧
        (⟨0, 6⟩ : SRange).start = (postStripRange "b/path:4:2".toList ⟨0, 10⟩).start ∧
        parseRowColumn
            (sliceOf "b/path:4:2".toList (postStripRange "b/path:4:2".toList ⟨0, 10⟩)) =
          ((sliceOf "b/path:4:2".toList
              (postStripRange "b/path:4:2".toList ⟨0, 10⟩)).length -
              (⟨4, some 2, 4⟩ : RowColumn).suffix_length,
            some (⟨4, some 2, 4⟩ : RowColumn).row, (⟨4, some 2, 4⟩ : RowColumn).column)) :=
  ⟨by decide,
    c7_positioned_variation "b/path:4:2".toList ⟨0, 10⟩ ⟨0, 6⟩ ⟨4, some 2, 4⟩ (by decide)⟩

/-! ## Claim C4: `relative_variations` -/

/-- C4: the positioned variation is emitted first, before all unpositioned
variations (whenever its text is relative, which is the condition every
emitted entry satisfies); every emitted entry's text is a relative path
and is stored with the worktree prefix stripped when it is present as a
prefix (absolute-path entries are filtered out). -/
theorem c4_relative_variations (line : List Char) (v : MaybePathVariant) (pre : List Char) :
    (∀ (r : SRange) (p : RowColumn), v.positioned_variation = some (r, p) →
      pathIsRelative (sliceOf line r) = true →
      (relative_variations line v (some pre)).head? =
        some ⟨(stripPrefixPath pre (sliceOf line r)).getD (sliceOf line r), some p, r⟩) ∧
    (∀ e ∈ relative_variations line v (some pre),
      pathIsRelative (sliceOf line e.range) = true ∧
      e.path = (stripPrefixPath pre (sliceOf line e.range)).getD (sliceOf line e.range)) := by
  constructor
  · intro r p hpos hrel
    unfold relative_variations
    rw [hpos]
    simp [hrel]
  · intro e he
    unfold relative_variations at he
    rw [List.mem_filterMap] at he
    obtain ⟨rp, _, hf⟩ := he
    simp only [] at hf
    split at hf
    · rename_i hc
      rw [Option.some_inj] at hf
      subst hf
      exact ⟨hc, rfl⟩
    · exact absurd hf (by simp)

/-- C4, witness: the positioned variation of `b/path:4:2` leads the
relative variations. -/
theorem c4_witness :
    (MaybePathVariant.new "b/path:4:2".toList ⟨0, 10⟩).positioned_variation =
        some (⟨0, 6⟩, ⟨4, some 2, 4⟩) ∧
      pathIsRelative (sliceOf "b/path:4:2".toList ⟨0, 6⟩) = true ∧
      (relative_variations "b/path:4:2".toList
          (MaybePathVariant.new "b/path:4:2".toList ⟨0, 10⟩) (some "/x".toList)).head? =
        some ⟨(stripPrefixPath "/x".toList (sliceOf "b/path:4:2".toList ⟨0, 6⟩)).getD
            (sliceOf "b/path:4:2".toList ⟨0, 6⟩), some ⟨4, some 2, 4⟩, ⟨0, 6⟩⟩ :=
  ⟨by decide, by decide,
    (c4_relative_variations "b/path:4:2".toList
        (MaybePathVariant.new "b/path:4:2".toList ⟨0, 10⟩) "/x".toList).1
      ⟨0, 6⟩ ⟨4, some 2, 4⟩ (by decide) (by decide)⟩

/-! ## Claim C5: `absolutize` -/

/-- C5, counterexample: the claim says the home-expanded candidate appears
iff `absolutize_home_dir` is set and the text begins with `~/` (or `~\`).
For the variation text `~` — which begins with neither — the code still
yields a home-expanded candidate, because the source condition is
`variation_path.strip_prefix("~").is_ok()`, i.e. the first path component
is `~`, not a `~/` text prefix. -/
theorem c5_home_expansion_counterexample :
    ((absolutize ['~'] (MaybePathVariant.new ['~'] ⟨0, 1⟩) [] "/home/u".toList ⟨0, 1⟩
        none).map (fun e => e.path) = ["/home/u/".toList]) ∧
      (MaybePathVariant.new ['~'] ⟨0, 1⟩).absolutize_home_dir = true ∧
      (['~', '/'].isPrefixOf (sliceOf ['~'] ⟨0, 1⟩) = false ∧
        ['~', '\\'].isPrefixOf (sliceOf ['~'] ⟨0, 1⟩) = false) := by
  decide

/-- C5 (amended): if the variation text is absolute, `absolutize` yields
exactly that path and nothing else; if it is relative, it yields one
root-joined candidate per root in the caller's order, followed by at most
one home-expanded candidate, which appears iff `absolutize_home_dir` is
set and `strip_prefix("~")` succeeds on the text (its first component is
`~`, e.g. `~` itself or a `~/…` text); all entries carry the given
position and range. -/
theorem c5_absolutize_characterization (line : List Char) (v : MaybePathVariant)
    (roots : List (List Char)) (homeDir : List Char) (r : SRange) (pos : Option RowColumn) :
    (pathIsAbsolute (sliceOf line r) = true →
      absolutize line v roots homeDir r pos = [⟨sliceOf line r, pos, r⟩]) ∧
    (pathIsAbsolute (sliceOf line r) = false →
      (absolutize line v roots homeDir r pos).map (fun e => e.path) =
        roots.map (fun root => pathJoin root (sliceOf line r)) ++
          (match v.absolutize_home_dir, stripPrefixPath ['~'] (sliceOf line r) with
           | true, some tildelessPath => [pathJoin homeDir tildelessPath]
           | _, _ => [])) ∧
    (∀ e ∈ absolutize line v roots homeDir r pos, e.position = pos ∧ e.range = r) := by
  refine ⟨?_, ?_, ?_⟩
  · intro h
    unfold absolutize
    rw [if_pos h]
  · intro h
    unfold absolutize absolutizeHomeDir
    rw [if_neg (by simp [h])]
    rw [List.map_append, List.map_map]
    congr 1
    cases habs : v.absolutize_home_dir <;>
      cases hstrip : stripPrefixPath ['~'] (sliceOf line r) <;> simp
  · unfold absolutize absolutizeHomeDir
    simp only []
    split
    · intro e he
      simp only [List.mem_singleton] at he
      subst he
      exact ⟨rfl, rfl⟩
    · refine List.forall_mem_append.2 ⟨?_, ?_⟩
      · intro e he
        rcases List.mem_map.1 he with ⟨root, _, hre⟩
        subst hre
        exact ⟨rfl, rfl⟩
      · intro e he
        split at he
        · split at he
          · simp only [List.mem_singleton] at he
            subst he
            exact ⟨rfl, rfl⟩
          · simp at he
        · simp at he

/-- C5, witness: the absolute-path case evaluated concretely. -/
theorem c5_witness :
    pathIsAbsolute (sliceOf "/a/b".toList ⟨0, 4⟩) = true ∧
      absolutize "/a/b".toList (MaybePathVariant.new "/a/b".toList ⟨0, 4⟩)
          ["/w".toList] "/home/u".toList ⟨0, 4⟩ none =
        [⟨sliceOf "/a/b".toList ⟨0, 4⟩, none, ⟨0, 4⟩⟩] :=
  ⟨by decide,
    (c5_absolutize_characterization "/a/b".toList (MaybePathVariant.new "/a/b".toList ⟨0, 4⟩)
        ["/w".toList] "/home/u".toList ⟨0, 4⟩ none).1 (by decide)⟩

/-! ## Claim C8: the Exhaustive tier cross product -/

theorem getD_take {l : List Char} {n i : Nat} (d : Char) (h : i < n) :
    (l.take n).getD i d = l.getD i d := by
  rw [List.getD_eq_getElem?_getD, List.getD_eq_getElem?_getD, List.getElem?_take, if_pos h]

theorem getD_drop {l : List Char} (n i : Nat) (d : Char) :
    (l.drop n).getD i d = l.getD (n + i) d := by
  rw [List.getD_eq_getElem?_getD, List.getD_eq_getElem?_getD, List.getElem?_drop]

theorem isMaxRun_spec {p : Char → Bool} {l : List Char} {r : SRange}
    (h : isMaxRun p l r = true) :
    r.start < r.stop ∧ r.stop ≤ l.length ∧
    (∀ i, r.start ≤ i → i < r.stop → p (l.getD i ' ') = true) := by
  unfold isMaxRun at h
  simp only [Bool.and_eq_true, decide_eq_true_eq, List.all_eq_true, List.mem_range] at h
  obtain ⟨⟨⟨⟨h1, h2⟩, h3⟩, _⟩, _⟩ := h
  refine ⟨h1, h2, ?_⟩
  intro i hi1 hi2
  have := h3 (i - r.start) (by omega)
  rwa [Nat.add_sub_cancel' hi1] at this

theorem wordStarts_take {p : Char → Bool} {l : List Char} {hs he : Nat}
    (h1 : hs < he) (h2 : he ≤ l.length)
    (h3 : ∀ i, hs ≤ i → i < he → p (l.getD i ' ') = true) :
    wordStarts p (l.take he) = (wordStarts p l).filter (fun s => decide (s ≤ hs)) := by
  unfold wordStarts
  rw [List.filter_filter]
  have hlen : (l.take he).length = he := by
    rw [List.length_take]; omega
  rw [hlen]
  have hsplit : List.range l.length =
      List.range he ++ (List.range (l.length - he)).map (he + ·) := by
    rw [← List.range_add]
    congr 1
    omega
  rw [hsplit, List.filter_append]
  have hright : ((List.range (l.length - he)).map (he + ·)).filter
      (fun i => decide (i ≤ hs) &&
        (p (l.getD i ' ') && (i == 0 || !p (l.getD (i - 1) ' ')))) = [] := by
    rw [List.filter_eq_nil_iff]
    intro a ha
    rcases List.mem_map.1 ha with ⟨k, _, rfl⟩
    simp only [Bool.and_eq_true, decide_eq_true_eq, not_and]
    intro hle
    omega
  rw [hright, List.append_nil]
  apply List.filter_congr
  intro i hi
  rw [List.mem_range] at hi
  rw [getD_take ' ' hi, getD_take ' ' (by omega : i - 1 < he)]
  by_cases hle : i ≤ hs
  · simp [hle]
  · simp only [decide_eq_false (by omega : ¬ i ≤ hs), Bool.false_and]
    have hi0 : (i == 0) = false := by
      simp only [beq_eq_false_iff_ne, ne_eq]
      omega
    have hp : p (l.getD (i - 1) ' ') = true := h3 (i - 1) (by omega) (by omega)
    rw [hi0, hp]
    simp

theorem wordEnds_drop {p : Char → Bool} {l : List Char} {hs he : Nat}
    (h1 : hs < he) (h2 : he ≤ l.length)
    (h3 : ∀ i, hs ≤ i → i < he → p (l.getD i ' ') = true) :
    (wordEnds p (l.drop hs)).map (hs + ·) =
      (wordEnds p l).filter (fun e => decide (he ≤ e)) := by
  unfold wordEnds
  rw [List.filter_filter]
  have hdlen : (l.drop hs).length = l.length - hs := List.length_drop hs l
  rw [hdlen]
  have hsplit : List.range (l.length + 1) =
      List.range hs ++ (List.range (l.length - hs + 1)).map (hs + ·) := by
    rw [← List.range_add]
    congr 1
    omega
  rw [hsplit, List.filter_append]
  have hleft : (List.range hs).filter
      (fun e => decide (he ≤ e) &&
        (e != 0 && p (l.getD (e - 1) ' ') && (e == l.length || !p (l.getD e ' ')))) = [] := by
    rw [List.filter_eq_nil_iff]
    intro a ha
    rw [List.mem_range] at ha
    simp only [Bool.and_eq_true, decide_eq_true_eq, not_and]
    intro hle
    omega
  rw [hleft, List.nil_append]
  rw [List.filter_map]
  congr 1
  apply List.filter_congr
  intro e he'
  rw [List.mem_range] at he'
  simp only [Function.comp_apply]
  rw [getD_drop, getD_drop]
  cases e with
  | zero =>
    have hT : ¬ he ≤ hs := by omega
    simp [hT]
  | succ k =>
    have hne1 : (k + 1 != 0) = true := by simp
    have hne2 : (hs + (k + 1) != 0) = true := by simp
    have hidx : hs + (k + 1 - 1) = hs + (k + 1) - 1 := by omega
    rw [hne1, hne2, hidx]
    simp only [Bool.true_and]
    have hbeq : (k + 1 == l.length - hs) = (hs + (k + 1) == l.length) := by
      rw [Bool.eq_iff_iff]
      simp only [beq_iff_eq]
      omega
    rw [hbeq]
    by_cases hcase : he ≤ hs + (k + 1)
    · simp [hcase]
    · have hp : p (l.getD (hs + (k + 1)) ' ') = true := h3 _ (by omega) (by omega)
      have hbne : (hs + (k + 1) == l.length) = false := by
        simp only [beq_eq_false_iff_ne, ne_eq]
        omega
      rw [List.getD_eq_getElem?_getD] at hp
      simp [hcase, hp, hbne]

/-- C8: when the hovered range is a maximal word of the line, the
Exhaustive tier yields exactly the cross product of the word starts
`s ≤ hovered.start` of the line with the word ends `e ≥ hovered.end`, each
as the candidate range `[s, e)`; for each fixed start the ends are
iterated in strictly decreasing order (the ascending end list reversed). -/
theorem c8_exhaustive_cross_product (p : Char → Bool) (line : List Char) (hovered : SRange)
    (h : isMaxRun p line hovered = true) :
    exhaustive_maybe_path_ranges p line hovered =
      ((wordStarts p line).filter (fun s => decide (s ≤ hovered.start))).flatMap
        (fun s =>
          (((wordEnds p line).filter (fun e => decide (hovered.stop ≤ e))).reverse).map
            (fun e => (⟨s, e⟩ : SRange))) ∧
    ((wordEnds p line).filter (fun e => decide (hovered.stop ≤ e))).reverse.Pairwise
      (· > ·) := by
  obtain ⟨h1, h2, h3⟩ := isMaxRun_spec h
  constructor
  · unfold exhaustive_maybe_path_ranges
    rw [wordStarts_take h1 h2 h3]
    have hfun : (fun s => ((wordEnds p (line.drop hovered.start)).reverse).map
        (fun e => (⟨s, hovered.start + e⟩ : SRange))) =
        (fun s =>
          (((wordEnds p line).filter (fun e => decide (hovered.stop ≤ e))).reverse).map
            (fun e => (⟨s, e⟩ : SRange))) := by
      funext s
      rw [← wordEnds_drop h1 h2 h3]
      rw [← List.map_reverse, List.map_map]
      rfl
    rw [hfun]
  · rw [List.pairwise_reverse]
    unfold wordEnds
    exact List.Pairwise.filter _ (List.Pairwise.filter _ (List.pairwise_lt_range _))

/-- C8, witness: the cross product on the line `ab cd ef` hovered at `cd`. -/
theorem c8_witness :
    isMaxRun sampleWordChar "ab cd ef".toList ⟨3, 5⟩ = true ∧
      (exhaustive_maybe_path_ranges sampleWordChar "ab cd ef".toList ⟨3, 5⟩ =
        ((wordStarts sampleWordChar "ab cd ef".toList).filter
            (fun s => decide (s ≤ (⟨3, 5⟩ : SRange).start))).flatMap
          (fun s =>
            (((wordEnds sampleWordChar "ab cd ef".toList).filter
                (fun e => decide ((⟨3, 5⟩ : SRange).stop ≤ e))).reverse).map
              (fun e => (⟨s, e⟩ : SRange))) ∧
        ((wordEnds sampleWordChar "ab cd ef".toList).filter
            (fun e => decide ((⟨3, 5⟩ : SRange).stop ≤ e))).reverse.Pairwise (· > ·)) :=
  ⟨by decide,
    c8_exhaustive_cross_product sampleWordChar "ab cd ef".toList ⟨3, 5⟩ (by decide)⟩
